import Mathlib

/-!
Verification of the lexical analyser in `src/app.tsx` of the repository
`devlulcas/brazilian-rule-script`.

The source is a TypeScript `Tokenizer` class holding two mutable fields,
`input : string` and `pos : number`.  Here the input is a `List Char`
(a JS string is a sequence of UTF-16 units; every character occurring in
this program is a single unit, so the correspondence is exact) and the
cursor is an explicit `Nat` threaded through every operation.  A thrown
`Error` becomes `Except.error`, paired with the value the `pos` field has
at the moment of the throw.
-/

set_option maxRecDepth 20000

namespace BrazilianRule

/- The `TOKENS` constant object of `app.tsx`: token kinds are plain strings. -/
namespace TOKENS

def ILLEGAL : String := "illegal"

def EOF : String := "eof"

def IDENT : String := "ident"

def NUMBER : String := "number"

def STRING : String := "string"

def COMMA : String := ","

def EQ : String := "é"

def AND : String := "e"

def OR : String := "ou"

def NOT : String := "não"

def NEQ : String := "não é"

def GT : String := "maior que"

def LT : String := "menor que"

def GTE : String := "maior ou igual a"

def LTE : String := "menor ou igual a"

def LPAREN : String := "("

def RPAREN : String := ")"

def PARAM : String := "param"

end TOKENS

/-- The `Token` class: a kind tag and the literal text consumed for it. -/
structure Token where
  type : String
  value : List Char
deriving DecidableEq, Repr

/-- A registered field matcher (`CustomToken` in the source).  The field
`regex` models `token.regex.test(c)` applied to a single character: for the
alternation regexes used in this program that is exactly a character-class
membership test.  The `validateValue` callback is omitted: it is an async
extension point that the tokenizer itself never invokes. -/
structure CustomToken where
  type : String
  regex : Char → Bool

namespace Tokenizer

/-- `isEOF()`: `this.pos >= this.input.length`. -/
def isEOF (input : List Char) (pos : Nat) : Bool := input.length ≤ pos

/-- `peek()`: `this.input[this.pos]`; reading past the end gives `undefined`,
modelled as `none`. -/
def peek (input : List Char) (pos : Nat) : Option Char := input[pos]?

/-- `consume()`: returns `this.input[this.pos++]` — the post-increment happens
even when reading past the end. -/
def consume (input : List Char) (pos : Nat) : Option Char × Nat :=
  (input[pos]?, pos + 1)

/-- The body of `consumeWhile`, with an iteration budget `k`.  The wrapper
always passes `k = input.length - pos`, which makes `k = 0` hold exactly when
`isEOF` does, so this is a faithful rendering of the source loop
`while (!this.isEOF() && predicate(this.peek()))`. -/
def consumeWhileAux (pred : Char → Bool) (input : List Char) :
    Nat → Nat → List Char × Nat
  | 0, pos => ([], pos)
  | k + 1, pos =>
    match input[pos]? with
    | none => ([], pos)
    | some c =>
      if pred c then
        let r := consumeWhileAux pred input k (pos + 1)
        (c :: r.1, r.2)
      else ([], pos)

/-- `consumeWhile(predicate)`: greedily consume characters satisfying the
predicate, returning the consumed text and the new cursor. -/
def consumeWhile (pred : Char → Bool) (input : List Char) (pos : Nat) :
    List Char × Nat :=
  consumeWhileAux pred input (input.length - pos) pos

/-- `consumeWhitespace()`: skip a run of plain `' '` characters only. -/
def consumeWhitespace (input : List Char) (pos : Nat) : Nat :=
  (consumeWhile (fun c => c == ' ') input pos).2

/-- `consumeString()`: consume the opening quote, then everything up to the
next `'"'`, then the closing quote.  The final `consume()` advances the
cursor even when the string is unterminated (no closing quote before EOF). -/
def consumeString (input : List Char) (pos : Nat) : List Char × Nat :=
  let p1 := (consume input pos).2
  let r := consumeWhile (fun c => c != '"') input p1
  (r.1, (consume input r.2).2)

/-- `consumeNumber()`: a maximal run of decimal digits; when `'.'` follows
immediately, also the dot and a further maximal run of digits. -/
def consumeNumber (input : List Char) (pos : Nat) : List Char × Nat :=
  let r := consumeWhile Char.isDigit input pos
  if peek input r.2 == some '.' then
    let r2 := consumeWhile Char.isDigit input ((consume input r.2).2)
    (r.1 ++ '.' :: r2.1, r2.2)
  else r

/-- `consumeCustomToken()`: try the registered matchers in order; the first
whose greedy run is non-empty (JS string truthiness) wins. -/
def consumeCustomToken : List CustomToken → List Char → Nat → List Char × Nat
  | [], _, pos => ([], pos)
  | t :: rest, input, pos =>
    let r := consumeWhile t.regex input pos
    if r.1.isEmpty then consumeCustomToken rest input r.2 else r

/-- `tokenizeString()`. -/
def tokenizeString (input : List Char) (pos : Nat) : Token × Nat :=
  let r := consumeString input pos
  (Token.mk TOKENS.STRING r.1, r.2)

/-- `tokenizeNumber()`. -/
def tokenizeNumber (input : List Char) (pos : Nat) : Token × Nat :=
  let r := consumeNumber input pos
  (Token.mk TOKENS.NUMBER r.1, r.2)

/-- `tokenizeCustomToken()`: when no matcher consumes anything,
`this.error('Invalid token')` throws. -/
def tokenizeCustomToken (cts : List CustomToken) (input : List Char) (pos : Nat) :
    Except String Token × Nat :=
  let r := consumeCustomToken cts input pos
  if r.1.isEmpty then (Except.error "Invalid token", r.2)
  else (Except.ok (Token.mk TOKENS.IDENT r.1), r.2)

/-- `tokenizeIt()`: skip spaces, return EOF at the end, otherwise dispatch on
the current character (quote → string, digit → number, else field matchers). -/
def tokenizeIt (cts : List CustomToken) (input : List Char) (pos : Nat) :
    Except String Token × Nat :=
  let p1 := consumeWhitespace input pos
  if h : input.length ≤ p1 then (Except.ok (Token.mk TOKENS.EOF []), p1)
  else
    let c := input.get ⟨p1, Nat.lt_of_not_le h⟩
    if c = '"' then
      let r := tokenizeString input p1
      (Except.ok r.1, r.2)
    else if c.isDigit then
      let r := tokenizeNumber input p1
      (Except.ok r.1, r.2)
    else tokenizeCustomToken cts input p1

/-- The body of the `tokenize()` collection loop, with an iteration budget.
The wrapper passes `input.length + 1 - pos`, which is always sufficient
because every token other than EOF advances the cursor (proved below), and a
budget of `0` means the cursor is already past the end, where the loop would
stop at once with no tokens anyway. -/
def tokenizeAux (cts : List CustomToken) (input : List Char) :
    Nat → Nat → Except String (List Token) × Nat
  | 0, pos => (Except.ok [], pos)
  | k + 1, pos =>
    match tokenizeIt cts input pos with
    | (Except.error e, p) => (Except.error e, p)
    | (Except.ok t, p) =>
      if t.type = TOKENS.EOF then (Except.ok [], p)
      else
        match tokenizeAux cts input k p with
        | (Except.error e, q) => (Except.error e, q)
        | (Except.ok ts, q) => (Except.ok (t :: ts), q)

/-- `tokenize()`: collect tokens up to, and excluding, the EOF token; a thrown
`Invalid token` error aborts the whole call. -/
def tokenize (cts : List CustomToken) (input : List Char) (pos : Nat) :
    Except String (List Token) × Nat :=
  tokenizeAux cts input (input.length + 1 - pos) pos

end Tokenizer

/-- First built-in matcher, for the field `produto`:
`regex: /p|r|o|d|u|t|o/` (the duplicated `o` is kept from the source). -/
def produtoTok : CustomToken :=
  ⟨TOKENS.PARAM, fun c =>
    c == 'p' || c == 'r' || c == 'o' || c == 'd' || c == 'u' || c == 't' || c == 'o'⟩

/-- Second built-in matcher, for the field `categoria`:
`regex: /c|a|t|e|g|o|r|i|a/`. -/
def categoriaTok : CustomToken :=
  ⟨TOKENS.PARAM, fun c =>
    c == 'c' || c == 'a' || c == 't' || c == 'e' || c == 'g' || c == 'o' ||
    c == 'r' || c == 'i' || c == 'a'⟩

/-- Third built-in matcher, for the field `preço`: `regex: /p|r|e|ç|o/`. -/
def precoTok : CustomToken :=
  ⟨TOKENS.PARAM, fun c =>
    c == 'p' || c == 'r' || c == 'e' || c == 'ç' || c == 'o'⟩

/-- The matcher list of the module-level `new Tokenizer([...])` call. -/
def customTokens : List CustomToken := [produtoTok, categoriaTok, precoTok]

/-- Concatenation of the texts of a list of tokens. -/
def tokenTexts (ts : List Token) : List Char := (ts.map Token.value).flatten

/-- Number-literal text exactly as §4.2 step 4 of the spec words it: a maximal
digit run and, when a dot immediately follows, the dot plus a further maximal
digit run. -/
def specNumberText (input : List Char) (pos : Nat) : List Char :=
  let d1 := (input.drop pos).takeWhile Char.isDigit
  if (input.drop (pos + d1.length)).head? = some '.' then
    d1 ++ '.' :: ((input.drop (pos + d1.length + 1)).takeWhile Char.isDigit)
  else d1

/-- The public operations of the tokenizer object: `setInput` (reset) and a
single `tokenizeIt` step (`nextToken`). -/
inductive Op where
  | reset (s : List Char)
  | next

/-- Effect of one public operation on the `(input, pos)` state. -/
def applyOp (cts : List CustomToken) : List Char × Nat → Op → List Char × Nat
  | _, Op.reset s => (s, 0)
  | (inp, pos), Op.next => (inp, (Tokenizer.tokenizeIt cts inp pos).2)

/-- Run a sequence of public operations. -/
def runOps (cts : List CustomToken) (st : List Char × Nat) (ops : List Op) :
    List Char × Nat :=
  ops.foldl (applyOp cts) st

/-! ### Generic list facts -/

theorem takeWhile_len_le (p : Char → Bool) : ∀ l : List Char,
    (l.takeWhile p).length ≤ l.length
  | [] => Nat.le_refl 0
  | a :: l => by
    rw [List.takeWhile_cons]
    by_cases h : p a
    · simpa [h] using Nat.succ_le_succ (takeWhile_len_le p l)
    · simp [h]

theorem drop_len_takeWhile (p : Char → Bool) : ∀ l : List Char,
    l.drop (l.takeWhile p).length = l.dropWhile p
  | [] => rfl
  | a :: l => by
    by_cases h : p a
    · simp [h, drop_len_takeWhile p l]
    · simp [h]

theorem takeWhile_append_drop_self (p : Char → Bool) (l : List Char) :
    l.takeWhile p ++ l.drop (l.takeWhile p).length = l := by
  rw [drop_len_takeWhile]
  exact List.takeWhile_append_dropWhile p l

/-- The consumed run, followed by the rest of the input, is the original
remainder of the input. -/
theorem consumed_append (p : Char → Bool) (input : List Char) (pos : Nat) :
    (input.drop pos).takeWhile p ++
      input.drop (pos + ((input.drop pos).takeWhile p).length) = input.drop pos := by
  rw [← List.drop_drop]
  exact takeWhile_append_drop_self p (input.drop pos)

/-- When `v` is consumed at `pos` (that is, `v ++ rest` is the remainder at
`pos`), the scanned prefix grows by exactly `v`. -/
theorem take_append_of_consumed (input v rest : List Char) (pos : Nat)
    (h : v ++ rest = input.drop pos) :
    input.take (pos + v.length) = input.take pos ++ v := by
  rw [List.take_add]
  congr 1
  rw [← h, List.take_left]

/-- The character right after a maximal `takeWhile p` run does not satisfy `p`. -/
theorem after_takeWhile_not (p : Char → Bool) (input : List Char) (pos : Nat) (c : Char)
    (h : input[pos + ((input.drop pos).takeWhile p).length]? = some c) : p c = false := by
  have h2 : ((input.drop pos).dropWhile p).head? = some c := by
    rw [← drop_len_takeWhile, List.head?_drop, List.getElem?_drop, h]
  have h3 := List.head?_dropWhile_not p (input.drop pos)
  rw [h2] at h3
  exact h3

namespace Tokenizer

/-! ### The consumeWhile loop -/

theorem consumeWhileAux_eq (pred : Char → Bool) (input : List Char) :
    ∀ k pos, input.length - pos = k →
      consumeWhileAux pred input k pos =
        ((input.drop pos).takeWhile pred,
          pos + ((input.drop pos).takeWhile pred).length) := by
  intro k
  induction k with
  | zero =>
    intro pos h
    have hd : input.drop pos = [] := List.drop_eq_nil_of_le (Nat.le_of_sub_eq_zero h)
    simp [consumeWhileAux, hd]
  | succ k ih =>
    intro pos h
    have hlt : pos < input.length := by omega
    have hdrop : input.drop pos = input.get ⟨pos, hlt⟩ :: input.drop (pos + 1) :=
      List.drop_eq_get_cons hlt
    have hget : input[pos]? = some (input.get ⟨pos, hlt⟩) := by
      simp [List.getElem?_eq_getElem hlt, List.get_eq_getElem]
    by_cases hp : pred (input.get ⟨pos, hlt⟩)
    · rw [hdrop, List.takeWhile_cons_of_pos hp]
      simp only [consumeWhileAux, hget, hp, if_true]
      rw [ih (pos + 1) (by omega)]
      simp only [List.length_cons]
      exact congrArg _ (by omega)
    · rw [hdrop, List.takeWhile_cons_of_neg hp]
      simp only [consumeWhileAux, hget, hp, if_false]
      simp

theorem consumeWhile_eq (pred : Char → Bool) (input : List Char) (pos : Nat) :
    consumeWhile pred input pos =
      ((input.drop pos).takeWhile pred,
        pos + ((input.drop pos).takeWhile pred).length) :=
  consumeWhileAux_eq pred input _ pos rfl

theorem consumeWhile_le (pred : Char → Bool) (input : List Char) (pos : Nat)
    (h : pos ≤ input.length) : (consumeWhile pred input pos).2 ≤ input.length := by
  rw [consumeWhile_eq]
  have h1 := takeWhile_len_le pred (input.drop pos)
  rw [List.length_drop] at h1
  simp only []
  omega

theorem consumeWhile_ge (pred : Char → Bool) (input : List Char) (pos : Nat) :
    pos ≤ (consumeWhile pred input pos).2 := by
  rw [consumeWhile_eq]
  exact Nat.le_add_right pos _

/-! ### Facts about peek and the cursor -/

theorem get_of_peek {input : List Char} {pos : Nat} {c : Char}
    (h : peek input pos = some c) :
    ∃ hlt : pos < input.length, input.get ⟨pos, hlt⟩ = c := by
  unfold peek at h
  by_cases hlt : pos < input.length
  · refine ⟨hlt, ?_⟩
    rw [List.getElem?_eq_getElem hlt] at h
    simp only [Option.some.injEq] at h
    rw [List.get_eq_getElem]
    exact h
  · rw [List.getElem?_eq_none (Nat.le_of_not_lt hlt)] at h
    exact absurd h (by simp)

theorem peek_of_get {input : List Char} {pos : Nat} (hlt : pos < input.length) :
    peek input pos = some (input.get ⟨pos, hlt⟩) := by
  unfold peek
  simp [List.getElem?_eq_getElem hlt, List.get_eq_getElem]

theorem drop_cons_of_peek {input : List Char} {pos : Nat} {c : Char}
    (h : peek input pos = some c) :
    input.drop pos = c :: input.drop (pos + 1) := by
  obtain ⟨hlt, hc⟩ := get_of_peek h
  rw [List.drop_eq_get_cons hlt, hc]

theorem consumeWhitespace_eq (input : List Char) (pos : Nat) :
    consumeWhitespace input pos =
      pos + ((input.drop pos).takeWhile (fun c => c == ' ')).length := by
  unfold consumeWhitespace
  rw [consumeWhile_eq]

theorem consumeWhitespace_ge (input : List Char) (pos : Nat) :
    pos ≤ consumeWhitespace input pos :=
  consumeWhile_ge _ input pos

theorem consumeWhitespace_le (input : List Char) (pos : Nat)
    (h : pos ≤ input.length) : consumeWhitespace input pos ≤ input.length :=
  consumeWhile_le _ input pos h

theorem consumeWhitespace_at_eof (input : List Char) (pos : Nat)
    (h : input.length ≤ pos) : consumeWhitespace input pos = pos := by
  rw [consumeWhitespace_eq, List.drop_eq_nil_of_le h]
  simp

theorem consumeWhitespace_nomove {input : List Char} {pos : Nat} {c : Char}
    (h : peek input pos = some c) (hc : ¬ c = ' ') :
    consumeWhitespace input pos = pos := by
  rw [consumeWhitespace_eq, drop_cons_of_peek h,
    List.takeWhile_cons_of_neg (by simp [hc])]
  simp

/-! ### Matcher dispatch -/

theorem consumeCustomToken_cons_eq (t : CustomToken) (rest : List CustomToken)
    (input : List Char) (pos : Nat) :
    consumeCustomToken (t :: rest) input pos =
      if ((input.drop pos).takeWhile t.regex).isEmpty then
        consumeCustomToken rest input
          (pos + ((input.drop pos).takeWhile t.regex).length)
      else ((input.drop pos).takeWhile t.regex,
        pos + ((input.drop pos).takeWhile t.regex).length) := by
  simp only [consumeCustomToken, consumeWhile_eq]

theorem consumeCustomToken_skipcons {input : List Char} {pos : Nat} {c : Char}
    (t : CustomToken) (rest : List CustomToken)
    (hc : peek input pos = some c) (ht : t.regex c = false) :
    consumeCustomToken (t :: rest) input pos = consumeCustomToken rest input pos := by
  rw [consumeCustomToken_cons_eq, drop_cons_of_peek hc,
    List.takeWhile_cons_of_neg (by simp [ht])]
  simp

theorem consumeCustomToken_skip (cts1 rest : List CustomToken) {input : List Char}
    {pos : Nat} {c : Char} (hc : peek input pos = some c)
    (hall : ∀ m ∈ cts1, m.regex c = false) :
    consumeCustomToken (cts1 ++ rest) input pos = consumeCustomToken rest input pos := by
  induction cts1 with
  | nil => rfl
  | cons t ts ih =>
    rw [List.cons_append, consumeCustomToken_skipcons t _ hc (hall t (by simp))]
    exact ih (fun m hm => hall m (by simp [hm]))

theorem consumeCustomToken_hit (m : CustomToken) (rest : List CustomToken)
    {input : List Char} {pos : Nat} {c : Char}
    (hc : peek input pos = some c) (hm : m.regex c = true) :
    consumeCustomToken (m :: rest) input pos =
      ((input.drop pos).takeWhile m.regex,
        pos + ((input.drop pos).takeWhile m.regex).length) := by
  rw [consumeCustomToken_cons_eq, drop_cons_of_peek hc,
    List.takeWhile_cons_of_pos hm]
  simp

theorem consumeCustomToken_spec (cts : List CustomToken) (input : List Char)
    (pos : Nat) :
    (consumeCustomToken cts input pos = ([], pos))
    ∨ ∃ m ∈ cts, ∃ v, v = (input.drop pos).takeWhile m.regex ∧ v ≠ [] ∧
        consumeCustomToken cts input pos = (v, pos + v.length) := by
  induction cts with
  | nil => left; rfl
  | cons t rest ih =>
    by_cases h : ((input.drop pos).takeWhile t.regex).isEmpty
    · have h0 : ((input.drop pos).takeWhile t.regex).length = 0 := by
        rw [List.isEmpty_iff] at h
        rw [h]
        rfl
      rw [consumeCustomToken_cons_eq, if_pos h, h0, Nat.add_zero]
      rcases ih with h1 | ⟨m, hm, v, hv, hne, heq⟩
      · left; exact h1
      · right; exact ⟨m, by simp [hm], v, hv, hne, heq⟩
    · right
      refine ⟨t, by simp, (input.drop pos).takeWhile t.regex, rfl, ?_, ?_⟩
      · intro hcon
        rw [List.isEmpty_iff] at h
        exact h hcon
      · rw [consumeCustomToken_cons_eq, if_neg h]

theorem consumeCustomToken_le (cts : List CustomToken) (input : List Char)
    (pos : Nat) (h : pos ≤ input.length) :
    (consumeCustomToken cts input pos).2 ≤ input.length := by
  rcases consumeCustomToken_spec cts input pos with heq | ⟨m, _, v, hv, _, heq⟩
  · rw [heq]; exact h
  · rw [heq]
    have h1 := takeWhile_len_le m.regex (input.drop pos)
    rw [List.length_drop, ← hv] at h1
    simp only []
    omega

/-! ### A non-dependent description of tokenizeIt -/

theorem tokenizeIt_eq (cts : List CustomToken) (input : List Char) (pos : Nat) :
    tokenizeIt cts input pos =
      match peek input (consumeWhitespace input pos) with
      | none =>
        (Except.ok (Token.mk TOKENS.EOF []), consumeWhitespace input pos)
      | some c =>
        if c = '"' then
          (Except.ok (tokenizeString input (consumeWhitespace input pos)).1,
            (tokenizeString input (consumeWhitespace input pos)).2)
        else if c.isDigit then
          (Except.ok (tokenizeNumber input (consumeWhitespace input pos)).1,
            (tokenizeNumber input (consumeWhitespace input pos)).2)
        else tokenizeCustomToken cts input (consumeWhitespace input pos) := by
  by_cases he : input.length ≤ consumeWhitespace input pos
  · have hn : peek input (consumeWhitespace input pos) = none := by
      unfold peek
      exact List.getElem?_eq_none he
    rw [hn]
    show (if h : input.length ≤ consumeWhitespace input pos then _ else _) = _
    rw [dif_pos he]
  · have hp := peek_of_get (Nat.lt_of_not_le he)
    rw [hp]
    show (if h : input.length ≤ consumeWhitespace input pos then _ else _) = _
    rw [dif_neg he]

theorem peek_eq_head_drop (input : List Char) (n : Nat) :
    peek input n = (input.drop n).head? := by
  unfold peek
  rw [List.head?_drop]

/-! ### Branch lemmas for tokenizeIt -/

theorem tokenizeIt_eof_eq (cts : List CustomToken) (input : List Char) (pos : Nat)
    (he : input.length ≤ consumeWhitespace input pos) :
    tokenizeIt cts input pos =
      (Except.ok (Token.mk TOKENS.EOF []), consumeWhitespace input pos) := by
  rw [tokenizeIt_eq]
  have hn : peek input (consumeWhitespace input pos) = none := by
    unfold peek
    exact List.getElem?_eq_none he
  rw [hn]

theorem tokenizeIt_at_eof (cts : List CustomToken) (input : List Char) (pos : Nat)
    (he : input.length ≤ pos) :
    tokenizeIt cts input pos = (Except.ok (Token.mk TOKENS.EOF []), pos) := by
  have h1 := consumeWhitespace_at_eof input pos he
  rw [tokenizeIt_eof_eq cts input pos (by rw [h1]; exact he), h1]

theorem tokenizeIt_string_eq (cts : List CustomToken) (input : List Char)
    (pos p1 : Nat) (hp1 : consumeWhitespace input pos = p1)
    (hc : peek input p1 = some '"') :
    tokenizeIt cts input pos =
      (Except.ok (Token.mk TOKENS.STRING
          ((input.drop (p1 + 1)).takeWhile (fun c => c != '"'))),
        p1 + 1 + ((input.drop (p1 + 1)).takeWhile (fun c => c != '"')).length + 1) := by
  rw [tokenizeIt_eq, hp1, hc]
  simp [tokenizeString, consumeString, consume, consumeWhile_eq]

theorem specNumberText_head {input : List Char} {p1 : Nat} {c : Char}
    (hc : peek input p1 = some c) (hd : c.isDigit = true) :
    1 ≤ (specNumberText input p1).length := by
  have h1 : (input.drop p1).takeWhile Char.isDigit =
      c :: ((input.drop (p1 + 1)).takeWhile Char.isDigit) := by
    rw [drop_cons_of_peek hc, List.takeWhile_cons_of_pos hd]
  unfold specNumberText
  simp only [h1]
  split
  · simp
  · simp

theorem specNumberText_le (input : List Char) (p1 : Nat) (h : p1 ≤ input.length) :
    p1 + (specNumberText input p1).length ≤ input.length := by
  have hd1 := takeWhile_len_le Char.isDigit (input.drop p1)
  rw [List.length_drop] at hd1
  unfold specNumberText
  simp only []
  by_cases hdot : (input.drop (p1 + ((input.drop p1).takeWhile Char.isDigit).length)).head?
      = some '.'
  · rw [if_pos hdot]
    have hlt : p1 + ((input.drop p1).takeWhile Char.isDigit).length < input.length := by
      have := get_of_peek (by rw [peek_eq_head_drop]; exact hdot)
      exact this.1
    have hd2 := takeWhile_len_le Char.isDigit
      (input.drop (p1 + ((input.drop p1).takeWhile Char.isDigit).length + 1))
    rw [List.length_drop] at hd2
    simp only [List.length_append, List.length_cons]
    omega
  · rw [if_neg hdot]
    omega

theorem tokenizeIt_number_eq (cts : List CustomToken) (input : List Char)
    (pos p1 : Nat) (c : Char) (hp1 : consumeWhitespace input pos = p1)
    (hc : peek input p1 = some c) (hq : ¬ c = '"') (hd : c.isDigit = true) :
    tokenizeIt cts input pos =
      (Except.ok (Token.mk TOKENS.NUMBER (specNumberText input p1)),
        p1 + (specNumberText input p1).length) := by
  rw [tokenizeIt_eq, hp1, hc]
  simp only [if_neg hq, hd, if_true]
  simp only [tokenizeNumber, consumeNumber, consume, consumeWhile_eq]
  unfold specNumberText
  simp only []
  by_cases hdot : (input.drop (p1 + ((input.drop p1).takeWhile Char.isDigit).length)).head?
      = some '.'
  · have hbeq : (peek input (p1 + ((input.drop p1).takeWhile Char.isDigit).length)
        == some '.') = true := by
      rw [peek_eq_head_drop, hdot]
      rfl
    rw [hbeq, if_pos rfl, if_pos hdot]
    simp only [Prod.mk.injEq, List.length_append, List.length_cons]
    refine ⟨by simp, by omega⟩
  · have hbeq : (peek input (p1 + ((input.drop p1).takeWhile Char.isDigit).length)
        == some '.') = false := by
      rw [peek_eq_head_drop]
      exact beq_eq_false_iff_ne.mpr hdot
    rw [hbeq, if_neg (by simp), if_neg hdot]

theorem tokenizeIt_custom_eq (cts : List CustomToken) (input : List Char)
    (pos p1 : Nat) (c : Char) (hp1 : consumeWhitespace input pos = p1)
    (hc : peek input p1 = some c) (hq : ¬ c = '"') (hd : c.isDigit = false) :
    tokenizeIt cts input pos = tokenizeCustomToken cts input p1 := by
  rw [tokenizeIt_eq, hp1, hc]
  simp only [if_neg hq, hd]
  rfl

theorem tokenizeCustomToken_snd (cts : List CustomToken) (input : List Char)
    (pos : Nat) :
    (tokenizeCustomToken cts input pos).2 = (consumeCustomToken cts input pos).2 := by
  simp only [tokenizeCustomToken]
  split <;> rfl

/-! ### Progress and cursor bounds -/

theorem tokenizeIt_progress (cts : List CustomToken) (input : List Char)
    (pos : Nat) (t : Token) (p' : Nat)
    (h : tokenizeIt cts input pos = (Except.ok t, p'))
    (ht : ¬ t.type = TOKENS.EOF) : pos < p' ∧ pos < input.length := by
  have hge := consumeWhitespace_ge input pos
  by_cases he : input.length ≤ consumeWhitespace input pos
  · rw [tokenizeIt_eof_eq cts input pos he] at h
    injection h with h1 h2
    injection h1 with h1
    rw [← h1] at ht
    exact absurd rfl ht
  · have hlt : consumeWhitespace input pos < input.length := Nat.lt_of_not_le he
    have hc := peek_of_get hlt
    by_cases hq : input.get ⟨consumeWhitespace input pos, hlt⟩ = '"'
    · rw [tokenizeIt_string_eq cts input pos _ rfl (by rw [hc, hq])] at h
      injection h with h1 h2
      omega
    · by_cases hd : (input.get ⟨consumeWhitespace input pos, hlt⟩).isDigit
      · rw [tokenizeIt_number_eq cts input pos _ _ rfl hc hq hd] at h
        injection h with h1 h2
        have hs := specNumberText_head hc hd
        omega
      · rw [tokenizeIt_custom_eq cts input pos _ _ rfl hc hq
          (by simpa using hd)] at h
        unfold tokenizeCustomToken at h
        rcases consumeCustomToken_spec cts input (consumeWhitespace input pos) with
          heq | ⟨m, hm, v, hv, hvne, heq⟩
        · rw [heq] at h
          simp at h
        · rw [heq] at h
          have hvE : v.isEmpty = false := by
            cases v
            · exact absurd rfl hvne
            · rfl
          simp only [hvE, Bool.false_eq_true, if_false] at h
          injection h with h1 h2
          have : 1 ≤ v.length := by
            cases v
            · exact absurd rfl hvne
            · simp
          omega

theorem tokenizeIt_le (cts : List CustomToken) (input : List Char) (pos : Nat)
    (h : pos ≤ input.length + 1) :
    (tokenizeIt cts input pos).2 ≤ input.length + 1 := by
  by_cases he : input.length ≤ consumeWhitespace input pos
  · rw [tokenizeIt_eof_eq cts input pos he]
    by_cases hp : pos ≤ input.length
    · exact Nat.le_succ_of_le (consumeWhitespace_le input pos hp)
    · have hpe : input.length ≤ pos := by omega
      rw [consumeWhitespace_at_eof input pos hpe]
      omega
  · have hlt : consumeWhitespace input pos < input.length := Nat.lt_of_not_le he
    have hple : consumeWhitespace input pos ≤ input.length := Nat.le_of_lt hlt
    have hc := peek_of_get hlt
    by_cases hq : input.get ⟨consumeWhitespace input pos, hlt⟩ = '"'
    · rw [tokenizeIt_string_eq cts input pos _ rfl (by rw [hc, hq])]
      have hl := takeWhile_len_le (fun c => c != '"')
        (input.drop (consumeWhitespace input pos + 1))
      rw [List.length_drop] at hl
      simp only []
      omega
    · by_cases hd : (input.get ⟨consumeWhitespace input pos, hlt⟩).isDigit
      · rw [tokenizeIt_number_eq cts input pos _ _ rfl hc hq hd]
        have := specNumberText_le input (consumeWhitespace input pos) hple
        simp only []
        omega
      · rw [tokenizeIt_custom_eq cts input pos _ _ rfl hc hq (by simpa using hd)]
        rw [tokenizeCustomToken_snd]
        exact Nat.le_succ_of_le
          (consumeCustomToken_le cts input (consumeWhitespace input pos) hple)

theorem tokenizeIt_eof_le (cts : List CustomToken) (input : List Char) (pos : Nat)
    (t : Token) (p' : Nat) (h : tokenizeIt cts input pos = (Except.ok t, p'))
    (ht : t.type = TOKENS.EOF) : input.length ≤ p' := by
  by_cases he : input.length ≤ consumeWhitespace input pos
  · rw [tokenizeIt_eof_eq cts input pos he] at h
    injection h with h1 h2
    omega
  · have hlt : consumeWhitespace input pos < input.length := Nat.lt_of_not_le he
    have hc := peek_of_get hlt
    by_cases hq : input.get ⟨consumeWhitespace input pos, hlt⟩ = '"'
    · rw [tokenizeIt_string_eq cts input pos _ rfl (by rw [hc, hq])] at h
      injection h with h1 h2
      injection h1 with h1
      rw [← h1] at ht
      have ht2 : TOKENS.STRING = TOKENS.EOF := ht
      exact absurd ht2 (by decide)
    · by_cases hd : (input.get ⟨consumeWhitespace input pos, hlt⟩).isDigit
      · rw [tokenizeIt_number_eq cts input pos _ _ rfl hc hq hd] at h
        injection h with h1 h2
        injection h1 with h1
        rw [← h1] at ht
        have ht2 : TOKENS.NUMBER = TOKENS.EOF := ht
        exact absurd ht2 (by decide)
      · rw [tokenizeIt_custom_eq cts input pos _ _ rfl hc hq (by simpa using hd)] at h
        simp only [tokenizeCustomToken] at h
        split at h
        · exact absurd (congrArg Prod.fst h) (by simp)
        · injection h with h1 h2
          injection h1 with h1
          rw [← h1] at ht
          have ht2 : TOKENS.IDENT = TOKENS.EOF := ht
          exact absurd ht2 (by decide)

/-! ### The tokenize loop -/

theorem tokenizeAux_past (cts : List CustomToken) (input : List Char) :
    ∀ k pos, input.length ≤ pos → tokenizeAux cts input k pos = (Except.ok [], pos)
  | 0, pos, _ => rfl
  | k + 1, pos, h => by
    simp only [tokenizeAux]
    rw [tokenizeIt_at_eof cts input pos h]
    simp

theorem tokenizeAux_irrel (cts : List CustomToken) (input : List Char) :
    ∀ k k' pos, input.length + 1 - pos ≤ k → input.length + 1 - pos ≤ k' →
      tokenizeAux cts input k pos = tokenizeAux cts input k' pos := by
  intro k
  induction k with
  | zero =>
    intro k' pos h h'
    have hp : input.length ≤ pos := by omega
    rw [tokenizeAux_past cts input 0 pos hp, tokenizeAux_past cts input k' pos hp]
  | succ k ih =>
    intro k' pos h h'
    cases k' with
    | zero =>
      have hp : input.length ≤ pos := by omega
      rw [tokenizeAux_past cts input (k + 1) pos hp, tokenizeAux_past cts input 0 pos hp]
    | succ k' =>
      simp only [tokenizeAux]
      cases htok : tokenizeIt cts input pos with
      | mk res p =>
        cases res with
        | error e => rfl
        | ok t =>
          simp only []
          by_cases ht : t.type = TOKENS.EOF
          · rw [if_pos ht, if_pos ht]
          · rw [if_neg ht, if_neg ht]
            have hpr := tokenizeIt_progress cts input pos t p htok ht
            rw [ih k' p (by omega) (by omega)]

theorem tokenize_step (cts : List CustomToken) (input : List Char) (pos : Nat) :
    tokenize cts input pos =
      match tokenizeIt cts input pos with
      | (Except.error e, p) => (Except.error e, p)
      | (Except.ok t, p) =>
        if t.type = TOKENS.EOF then (Except.ok [], p)
        else
          match tokenize cts input p with
          | (Except.error e, q) => (Except.error e, q)
          | (Except.ok ts, q) => (Except.ok (t :: ts), q) := by
  unfold tokenize
  cases hk : input.length + 1 - pos with
  | zero =>
    have hp : input.length ≤ pos := by omega
    rw [tokenizeAux_past cts input 0 pos hp, tokenizeIt_at_eof cts input pos hp]
    simp
  | succ k =>
    simp only [tokenizeAux]
    cases htok : tokenizeIt cts input pos with
    | mk res p =>
      cases res with
      | error e => rfl
      | ok t =>
        simp only []
        by_cases ht : t.type = TOKENS.EOF
        · rw [if_pos ht, if_pos ht]
        · rw [if_neg ht, if_neg ht]
          have hpr := tokenizeIt_progress cts input pos t p htok ht
          rw [tokenizeAux_irrel cts input k (input.length + 1 - p) p (by omega)
            (by omega)]

theorem tokenizeAux_ok_end (cts : List CustomToken) (input : List Char) :
    ∀ k pos ts p', input.length + 1 - pos ≤ k →
      tokenizeAux cts input k pos = (Except.ok ts, p') → input.length ≤ p' := by
  intro k
  induction k with
  | zero =>
    intro pos ts p' h heq
    have hp : input.length ≤ pos := by omega
    simp only [tokenizeAux] at heq
    injection heq with h1 h2
    omega
  | succ k ih =>
    intro pos ts p' h heq
    simp only [tokenizeAux] at heq
    cases htok : tokenizeIt cts input pos with
    | mk res p =>
      rw [htok] at heq
      cases res with
      | error e => exact absurd (congrArg Prod.fst heq) (by simp)
      | ok t =>
        simp only [] at heq
        by_cases ht : t.type = TOKENS.EOF
        · rw [if_pos ht] at heq
          injection heq with h1 h2
          have := tokenizeIt_eof_le cts input pos t p htok ht
          omega
        · rw [if_neg ht] at heq
          have hpr := tokenizeIt_progress cts input pos t p htok ht
          cases haux : tokenizeAux cts input k p with
          | mk res' q =>
            rw [haux] at heq
            cases res' with
            | error e => exact absurd (congrArg Prod.fst heq) (by simp)
            | ok ts' =>
              injection heq with h1 h2
              rw [← h2]
              exact ih p ts' q (by omega) haux

theorem tokenize_ok_end (cts : List CustomToken) (input : List Char) (pos : Nat)
    (ts : List Token) (p' : Nat) (h : tokenize cts input pos = (Except.ok ts, p')) :
    input.length ≤ p' :=
  tokenizeAux_ok_end cts input (input.length + 1 - pos) pos ts p' (Nat.le_refl _) h

theorem tokenize_at_end (cts : List CustomToken) (input : List Char) (pos : Nat)
    (h : input.length ≤ pos) : tokenize cts input pos = (Except.ok [], pos) := by
  rw [tokenize_step, tokenizeIt_at_eof cts input pos h]
  simp

end Tokenizer

namespace Tokenizer

/-- The number text is exactly what the scan consumed: it is followed in the
input by the remainder at the advanced cursor. -/
theorem specNumberText_consumed (input : List Char) (p1 : Nat) :
    specNumberText input p1 ++ input.drop (p1 + (specNumberText input p1).length) =
      input.drop p1 := by
  unfold specNumberText
  simp only []
  by_cases hdot : (input.drop (p1 + ((input.drop p1).takeWhile Char.isDigit).length)).head?
      = some '.'
  · rw [if_pos hdot]
    have h2 := consumed_append Char.isDigit input
      (p1 + ((input.drop p1).takeWhile Char.isDigit).length + 1)
    have hdcons : input.drop (p1 + ((input.drop p1).takeWhile Char.isDigit).length) =
        '.' :: input.drop (p1 + ((input.drop p1).takeWhile Char.isDigit).length + 1) :=
      drop_cons_of_peek (by rw [peek_eq_head_drop]; exact hdot)
    have h1 := consumed_append Char.isDigit input p1
    have hlen : p1 + ((input.drop p1).takeWhile Char.isDigit ++
        '.' :: (input.drop (p1 + ((input.drop p1).takeWhile Char.isDigit).length + 1)).takeWhile
          Char.isDigit).length =
        p1 + ((input.drop p1).takeWhile Char.isDigit).length + 1 +
          ((input.drop (p1 + ((input.drop p1).takeWhile Char.isDigit).length + 1)).takeWhile
            Char.isDigit).length := by
      simp only [List.length_append, List.length_cons]
      omega
    rw [hlen, List.append_assoc, List.cons_append]
    rw [h2, ← hdcons, h1]
  · rw [if_neg hdot]
    exact consumed_append Char.isDigit input p1

/-- The whitespace skipped by a call is a run of spaces sitting between the
old and the new cursor. -/
theorem whitespace_scan (input : List Char) (pos : Nat) :
    ∃ w, (∀ ch ∈ w, ch = ' ') ∧
      w ++ input.drop (consumeWhitespace input pos) = input.drop pos ∧
      input.take (consumeWhitespace input pos) = input.take pos ++ w := by
  refine ⟨(input.drop pos).takeWhile (fun c => c == ' '), ?_, ?_, ?_⟩
  · intro ch hch
    have h2 := List.mem_takeWhile_imp hch
    simpa using h2
  · rw [consumeWhitespace_eq]
    exact consumed_append _ input pos
  · rw [consumeWhitespace_eq]
    exact take_append_of_consumed input _ _ pos (consumed_append _ input pos)

end Tokenizer

/-! ## Claims -/

open Tokenizer

/-- C10: with the built-in matcher list, tokenizing `preço` does not give one
Identifier token with text `preço`: the produto matcher eats `pr`, then the
categoria matcher eats `e`, then the preço matcher eats `ço`, so tokenizeAll
returns three Identifier tokens `pr`, `e`, `ço` in that order. -/
theorem c10_preco_splits :
    tokenize customTokens ("preço".data) 0 =
      (Except.ok [Token.mk TOKENS.IDENT ['p', 'r'], Token.mk TOKENS.IDENT ['e'],
        Token.mk TOKENS.IDENT ['ç', 'o']], 5) ∧
    [Token.mk TOKENS.IDENT ['p', 'r'], Token.mk TOKENS.IDENT ['e'],
        Token.mk TOKENS.IDENT ['ç', 'o']] ≠ [Token.mk TOKENS.IDENT ("preço".data)] :=
  ⟨rfl, by decide⟩

/-- C4 counterexample: reset to the one-character input `"` and call nextToken
once; the unterminated string handling leaves the cursor at 2, outside
`[0, length(input)] = [0, 1]`. -/
theorem c4_counterexample :
    runOps customTokens ([], 0) [Op.reset ['"'], Op.next] = (['"'], 2) ∧
    ¬ (runOps customTokens ([], 0) [Op.reset ['"'], Op.next]).2 ≤
        (runOps customTokens ([], 0) [Op.reset ['"'], Op.next]).1.length :=
  ⟨rfl, by decide⟩

/-- C4 (amended): for every input and every sequence of reset/nextToken calls,
the cursor stays within `[0, length(input) + 1]`; it can exceed the length
only by one, via the closing-quote consume of an unterminated string. -/
theorem c4_amended_cursor_bound (cts : List CustomToken) (st : List Char × Nat)
    (ops : List Op) (h : st.2 ≤ st.1.length + 1) :
    (runOps cts st ops).2 ≤ (runOps cts st ops).1.length + 1 := by
  induction ops generalizing st with
  | nil => exact h
  | cons op rest ih =>
    refine ih (applyOp cts st op) ?_
    cases op with
    | reset s => simp [applyOp]
    | next =>
      cases st with
      | mk inp pos => exact tokenizeIt_le cts inp pos h

/-- Witness for C4 (amended) at a concrete state and operation list. -/
theorem c4_amended_witness :
    (runOps customTokens (['"'], 0) [Op.next, Op.next]).2 ≤
      (runOps customTokens (['"'], 0) [Op.next, Op.next]).1.length + 1 :=
  c4_amended_cursor_bound customTokens (['"'], 0) [Op.next, Op.next] (by decide)

/-- C5: when the current character is not a space, quote, or digit, and every
registered matcher's character class rejects it, nextToken fails with exactly
the message `Invalid token` (no positional context), produces no token, and
leaves the cursor unchanged. -/
theorem c5_invalid_token (cts : List CustomToken) (input : List Char) (pos : Nat)
    (c : Char) (hc : peek input pos = some c) (hsp : ¬ c = ' ')
    (hq : ¬ c = '"') (hd : c.isDigit = false)
    (hm : ∀ m ∈ cts, m.regex c = false) :
    tokenizeIt cts input pos = (Except.error "Invalid token", pos) := by
  have hp1 : consumeWhitespace input pos = pos := consumeWhitespace_nomove hc hsp
  rw [tokenizeIt_custom_eq cts input pos pos c hp1 hc hq hd]
  have hcc : consumeCustomToken cts input pos = ([], pos) := by
    have h2 := consumeCustomToken_skip cts [] hc hm
    rw [List.append_nil] at h2
    exact h2
  simp [tokenizeCustomToken, hcc]

/-- Witness for C5: the character `@` is rejected by every built-in matcher. -/
theorem c5_witness :
    tokenizeIt customTokens ['@'] 0 = (Except.error "Invalid token", 0) :=
  c5_invalid_token customTokens ['@'] 0 '@' rfl (by decide) (by decide) (by decide)
    (by decide)

/-- C2: at matcher dispatch, matchers are tried in registration order; every
earlier matcher whose class rejects the current character consumes nothing,
and the first matcher whose class accepts it wins, consuming the maximal run
of characters of its class as the Identifier text; the result does not depend
on the matchers registered after the winner, and the character following the
consumed run (if any) fails the winner's class. -/
theorem c2_first_matcher_wins (cts1 cts2 : List CustomToken) (m : CustomToken)
    (input : List Char) (pos p1 : Nat) (c : Char) (v : List Char)
    (hp1 : consumeWhitespace input pos = p1)
    (hc : peek input p1 = some c)
    (hq : ¬ c = '"') (hd : c.isDigit = false)
    (hskip : ∀ mm ∈ cts1, mm.regex c = false) (hm : m.regex c = true)
    (hv : v = (input.drop p1).takeWhile m.regex) :
    tokenizeIt (cts1 ++ m :: cts2) input pos =
      (Except.ok (Token.mk TOKENS.IDENT v), p1 + v.length) ∧
    v ≠ [] ∧
    (∀ c2, peek input (p1 + v.length) = some c2 → m.regex c2 = false) := by
  have hvc : v = c :: ((input.drop (p1 + 1)).takeWhile m.regex) := by
    rw [hv, drop_cons_of_peek hc, List.takeWhile_cons_of_pos hm]
  refine ⟨?_, by rw [hvc]; exact List.cons_ne_nil c _, ?_⟩
  · rw [tokenizeIt_custom_eq (cts1 ++ m :: cts2) input pos p1 c hp1 hc hq hd]
    have hcc := consumeCustomToken_skip cts1 (m :: cts2) hc hskip
    have hhit := consumeCustomToken_hit m cts2 hc hm
    simp only [tokenizeCustomToken, hcc, hhit, ← hv]
    rw [hvc]
    simp
  · intro c2 hc2
    refine after_takeWhile_not m.regex input p1 c2 ?_
    rw [hv] at hc2
    exact hc2

/-- Witness for C2: on input `ca`, produto rejects `c`, categoria wins and
consumes the whole maximal run `ca`; preço is never consulted. -/
theorem c2_witness :
    tokenizeIt ([produtoTok] ++ categoriaTok :: [precoTok]) ("ca".data) 0 =
      (Except.ok (Token.mk TOKENS.IDENT ['c', 'a']), 0 + (['c', 'a'] : List Char).length) ∧
    (['c', 'a'] : List Char) ≠ [] ∧
    (∀ c2, peek ("ca".data) (0 + (['c', 'a'] : List Char).length) = some c2 →
      categoriaTok.regex c2 = false) :=
  c2_first_matcher_wins [produtoTok] [precoTok] categoriaTok ("ca".data) 0 0 'c'
    ['c', 'a'] rfl rfl (by decide) (by decide) (by decide) (by decide) (by decide)

/-- C7: when the first non-space character is a double quote and no further
double quote occurs, nextToken returns a String token whose text is all the
characters after the opening quote up to end-of-input, and raises no error. -/
theorem c7_unterminated_string (cts : List CustomToken) (input : List Char)
    (pos p1 : Nat) (hp1 : consumeWhitespace input pos = p1)
    (hc : peek input p1 = some '"')
    (hno : ∀ c ∈ input.drop (p1 + 1), ¬ c = '"') :
    tokenizeIt cts input pos =
      (Except.ok (Token.mk TOKENS.STRING (input.drop (p1 + 1))), input.length + 1) := by
  have htw : (input.drop (p1 + 1)).takeWhile (fun c => c != '"') = input.drop (p1 + 1) :=
    List.takeWhile_eq_self_iff.mpr (fun x hx => by simp [hno x hx])
  have hlt := (get_of_peek hc).1
  rw [tokenizeIt_string_eq cts input pos p1 hp1 hc, htw]
  simp only [Prod.mk.injEq, List.length_drop]
  exact ⟨by simp, by omega⟩

/-- Witness for C7 on the unterminated input `"a` (a quote then `a`). -/
theorem c7_witness :
    tokenizeIt customTokens ['"', 'a'] 0 =
      (Except.ok (Token.mk TOKENS.STRING ['a']), 3) :=
  c7_unterminated_string customTokens ['"', 'a'] 0 0 rfl rfl (by decide)

/-- C9: at a decimal digit, nextToken consumes a maximal digit run, and when a
dot immediately follows, also the dot and a further maximal digit run,
emitting one Number token whose text is the whole consumed run. -/
theorem c9_number (cts : List CustomToken) (input : List Char) (pos p1 : Nat)
    (c : Char) (hp1 : consumeWhitespace input pos = p1)
    (hc : peek input p1 = some c) (hd : c.isDigit = true) :
    tokenizeIt cts input pos =
      (Except.ok (Token.mk TOKENS.NUMBER (specNumberText input p1)),
        p1 + (specNumberText input p1).length) := by
  refine tokenizeIt_number_eq cts input pos p1 c hp1 hc ?_ hd
  intro hqq
  rw [hqq] at hd
  exact absurd hd (by decide)

/-- Witness for C9: the input `102.5` yields one Number token with text
exactly `102.5`, at the single call and through tokenizeAll. -/
theorem c9_witness :
    tokenizeIt customTokens ("102.5".data) 0 =
      (Except.ok (Token.mk TOKENS.NUMBER ("102.5".data)), 5) ∧
    tokenize customTokens ("102.5".data) 0 =
      (Except.ok [Token.mk TOKENS.NUMBER ("102.5".data)], 5) :=
  ⟨c9_number customTokens ("102.5".data) 0 0 '1' rfl rfl (by decide), rfl⟩

/-- C8: nextToken is idempotent at end-of-input — at or past the end it
returns the EOF token without moving, an EOF result is only produced at the
end, and a tokenizeAll that ended successfully leaves the cursor so that a
second tokenizeAll returns the empty sequence. -/
theorem c8_idempotent_at_eof (cts : List CustomToken) (input : List Char) :
    (∀ pos, input.length ≤ pos →
      tokenizeIt cts input pos = (Except.ok (Token.mk TOKENS.EOF []), pos)) ∧
    (∀ pos t p', tokenizeIt cts input pos = (Except.ok t, p') →
      t.type = TOKENS.EOF → input.length ≤ p') ∧
    (∀ pos ts p', tokenize cts input pos = (Except.ok ts, p') →
      tokenize cts input p' = (Except.ok [], p')) :=
  ⟨fun pos h => tokenizeIt_at_eof cts input pos h,
    fun pos t p' h ht => tokenizeIt_eof_le cts input pos t p' h ht,
    fun pos ts p' h => tokenize_at_end cts input p'
      (tokenize_ok_end cts input pos ts p' h)⟩

/-- Witness for C8: after tokenizing `p` (one token, cursor 1), a second
tokenizeAll from the final cursor returns the empty sequence. -/
theorem c8_witness :
    tokenize customTokens ("p".data) 1 = (Except.ok [], 1) :=
  (c8_idempotent_at_eof customTokens ("p".data)).2.2 0
    [Token.mk TOKENS.IDENT ['p']] 1 rfl

/-- C6: tokenizeAll fails fast — an error from the very first nextToken call
is the result of the whole call, and an error from the remainder of the run
aborts the whole call with that error, discarding the token just produced. -/
theorem c6_fail_fast (cts : List CustomToken) (input : List Char) :
    (∀ pos e p', tokenizeIt cts input pos = (Except.error e, p') →
      (tokenize cts input pos).1 = Except.error e) ∧
    (∀ pos t p' e, tokenizeIt cts input pos = (Except.ok t, p') →
      ¬ t.type = TOKENS.EOF → (tokenize cts input p').1 = Except.error e →
      (tokenize cts input pos).1 = Except.error e) := by
  constructor
  · intro pos e p' h
    rw [tokenize_step, h]
  · intro pos t p' e h ht herr
    rw [tokenize_step, h]
    simp only [if_neg ht]
    cases hrec : tokenize cts input p' with
    | mk res q =>
      rw [hrec] at herr
      cases res with
      | error e2 =>
        simp only [] at herr
        rw [herr]
      | ok ts => exact absurd herr (by simp)

/-- Witness for C6: tokenizing `p@` first produces the Identifier `p`, then
fails at `@`; the whole tokenizeAll aborts with that error and returns no
tokens. -/
theorem c6_witness :
    (tokenize customTokens ("p@".data) 0).1 = Except.error "Invalid token" :=
  (c6_fail_fast customTokens ("p@".data)).2 0 (Token.mk TOKENS.IDENT ['p']) 1
    "Invalid token" rfl (by decide) rfl

/-- C3 counterexample: for the input consisting of a quoted `a` the scanner
consumes all three characters, skips no spaces, and the only emitted text is
`a` — so emitted texts plus skipped whitespace do not reconstitute the
scanned prefix (the quotes are dropped). -/
theorem c3_counterexample :
    tokenize customTokens ['"', 'a', '"'] 0 =
      (Except.ok [Token.mk TOKENS.STRING ['a']], 3) ∧
    (∀ ch ∈ (['"', 'a', '"'] : List Char), ¬ ch = ' ') ∧
    tokenTexts [Token.mk TOKENS.STRING ['a']] ≠ (['"', 'a', '"'] : List Char).take 3 :=
  ⟨rfl, by decide, by decide⟩

/-- C3 (amended): after each successful nextToken call the newly scanned
segment of the input is the skipped run of spaces followed by the token's
text — except for String tokens, where it is the spaces, the opening quote,
the text, and a closing quote when one was present; so the scanned prefix is
reconstituted from emitted texts, skipped space runs, and the consumed quote
characters of String tokens. -/
theorem c3_amended_scan (cts : List CustomToken) (input : List Char) (pos : Nat)
    (t : Token) (p' : Nat)
    (h : tokenizeIt cts input pos = (Except.ok t, p')) :
    ∃ w ext, (∀ ch ∈ w, ch = ' ') ∧ (ext = [] ∨ ext = ['"']) ∧
      input.take p' = input.take pos ++ w ++
        (if t.type = TOKENS.STRING then '"' :: t.value ++ ext else t.value) := by
  obtain ⟨w, hw, hwcons, hwtake⟩ := whitespace_scan input pos
  by_cases he : input.length ≤ consumeWhitespace input pos
  · rw [tokenizeIt_eof_eq cts input pos he] at h
    injection h with h1 h2
    injection h1 with h1
    refine ⟨w, [], hw, Or.inl rfl, ?_⟩
    rw [← h1, ← h2]
    rw [if_neg (show ¬ (Token.mk TOKENS.EOF []).type = TOKENS.STRING from
      fun hh => absurd hh (by decide))]
    rw [hwtake]
    simp
  · have hlt : consumeWhitespace input pos < input.length := Nat.lt_of_not_le he
    have hc := peek_of_get hlt
    by_cases hq : input.get ⟨consumeWhitespace input pos, hlt⟩ = '"'
    · rw [tokenizeIt_string_eq cts input pos _ rfl (by rw [hc, hq])] at h
      injection h with h1 h2
      injection h1 with h1
      have hcons : (input.drop (consumeWhitespace input pos + 1)).takeWhile
            (fun c => c != '"') ++
          input.drop (consumeWhitespace input pos + 1 +
            ((input.drop (consumeWhitespace input pos + 1)).takeWhile
              (fun c => c != '"')).length) =
          input.drop (consumeWhitespace input pos + 1) := by
        have h3 := consumed_append (fun c => c != '"') input
          (consumeWhitespace input pos + 1)
        exact h3
      have hdq : input.drop (consumeWhitespace input pos) =
          '"' :: input.drop (consumeWhitespace input pos + 1) :=
        drop_cons_of_peek (by rw [hc, hq])
      have hcons2 : ('"' :: (input.drop (consumeWhitespace input pos + 1)).takeWhile
            (fun c => c != '"')) ++
          input.drop (consumeWhitespace input pos + 1 +
            ((input.drop (consumeWhitespace input pos + 1)).takeWhile
              (fun c => c != '"')).length) =
          input.drop (consumeWhitespace input pos) := by
        rw [hdq, List.cons_append, hcons]
      have htq : input.take (consumeWhitespace input pos + 1 +
            ((input.drop (consumeWhitespace input pos + 1)).takeWhile
              (fun c => c != '"')).length) =
          input.take (consumeWhitespace input pos) ++
            '"' :: (input.drop (consumeWhitespace input pos + 1)).takeWhile
              (fun c => c != '"') := by
        have h4 := take_append_of_consumed input _ _ (consumeWhitespace input pos) hcons2
        rw [List.length_cons] at h4
        rw [show consumeWhitespace input pos + 1 +
            ((input.drop (consumeWhitespace input pos + 1)).takeWhile
              (fun c => c != '"')).length =
          consumeWhitespace input pos +
            (((input.drop (consumeWhitespace input pos + 1)).takeWhile
              (fun c => c != '"')).length + 1) from by omega]
        exact h4
      by_cases hend : consumeWhitespace input pos + 1 +
          ((input.drop (consumeWhitespace input pos + 1)).takeWhile
            (fun c => c != '"')).length < input.length
      · have hq2 : peek input (consumeWhitespace input pos + 1 +
            ((input.drop (consumeWhitespace input pos + 1)).takeWhile
              (fun c => c != '"')).length) = some '"' := by
          have hp2 := peek_of_get hend
          have hnot := after_takeWhile_not (fun c => c != '"') input
            (consumeWhitespace input pos + 1) (input.get ⟨_, hend⟩) hp2
          have hgq : input.get ⟨_, hend⟩ = '"' := by simpa using hnot
          rw [hp2, hgq]
        have hdq2 : input.drop (consumeWhitespace input pos + 1 +
              ((input.drop (consumeWhitespace input pos + 1)).takeWhile
                (fun c => c != '"')).length) =
            '"' :: input.drop (consumeWhitespace input pos + 1 +
              ((input.drop (consumeWhitespace input pos + 1)).takeWhile
                (fun c => c != '"')).length + 1) :=
          drop_cons_of_peek hq2
        refine ⟨w, ['"'], hw, Or.inr rfl, ?_⟩
        rw [← h1, ← h2]
        rw [if_pos (show (Token.mk TOKENS.STRING
          ((input.drop (consumeWhitespace input pos + 1)).takeWhile
            (fun c => c != '"'))).type = TOKENS.STRING from rfl)]
        have ht3 : input.take (consumeWhitespace input pos + 1 +
              ((input.drop (consumeWhitespace input pos + 1)).takeWhile
                (fun c => c != '"')).length + 1) =
            input.take (consumeWhitespace input pos + 1 +
              ((input.drop (consumeWhitespace input pos + 1)).takeWhile
                (fun c => c != '"')).length) ++ ['"'] := by
          have hcons3 : ['"'] ++ input.drop (consumeWhitespace input pos + 1 +
                ((input.drop (consumeWhitespace input pos + 1)).takeWhile
                  (fun c => c != '"')).length + 1) =
              input.drop (consumeWhitespace input pos + 1 +
                ((input.drop (consumeWhitespace input pos + 1)).takeWhile
                  (fun c => c != '"')).length) := by
            rw [hdq2]
            rfl
          have h5 := take_append_of_consumed input _ _ _ hcons3
          simpa using h5
        rw [ht3, htq, hwtake]
        simp
      · refine ⟨w, [], hw, Or.inl rfl, ?_⟩
        rw [← h1, ← h2]
        rw [if_pos (show (Token.mk TOKENS.STRING
          ((input.drop (consumeWhitespace input pos + 1)).takeWhile
            (fun c => c != '"'))).type = TOKENS.STRING from rfl)]
        have hge : input.length ≤ consumeWhitespace input pos + 1 +
            ((input.drop (consumeWhitespace input pos + 1)).takeWhile
              (fun c => c != '"')).length := by omega
        have ht1 : input.take (consumeWhitespace input pos + 1 +
              ((input.drop (consumeWhitespace input pos + 1)).takeWhile
                (fun c => c != '"')).length + 1) = input :=
          List.take_of_length_le (by omega)
        have ht2 : input.take (consumeWhitespace input pos + 1 +
              ((input.drop (consumeWhitespace input pos + 1)).takeWhile
                (fun c => c != '"')).length) = input :=
          List.take_of_length_le hge
        have hfin : input = input.take pos ++ w ++
            ('"' :: ((input.drop (consumeWhitespace input pos + 1)).takeWhile
              (fun c => c != '"')) ++ ([] : List Char)) := by
          conv_lhs => rw [← ht2]
          rw [htq, hwtake]
          simp
        rw [ht1]
        simpa using hfin
    · by_cases hdg : (input.get ⟨consumeWhitespace input pos, hlt⟩).isDigit
      · rw [tokenizeIt_number_eq cts input pos _ _ rfl hc hq hdg] at h
        injection h with h1 h2
        injection h1 with h1
        refine ⟨w, [], hw, Or.inl rfl, ?_⟩
        rw [← h1, ← h2]
        rw [if_neg (show ¬ (Token.mk TOKENS.NUMBER
          (specNumberText input (consumeWhitespace input pos))).type = TOKENS.STRING from
          fun hh => absurd (show TOKENS.NUMBER = TOKENS.STRING from hh) (by decide))]
        have h6 := take_append_of_consumed input _ _ (consumeWhitespace input pos)
          (specNumberText_consumed input (consumeWhitespace input pos))
        rw [h6, hwtake]
      · rw [tokenizeIt_custom_eq cts input pos _ _ rfl hc hq (by simpa using hdg)] at h
        simp only [tokenizeCustomToken] at h
        rcases consumeCustomToken_spec cts input (consumeWhitespace input pos) with
          heq | ⟨m, hmem, v, hv, hvne, heq⟩
        · rw [heq] at h
          simp at h
        · rw [heq] at h
          have hvE : v.isEmpty = false := by
            cases v
            · exact absurd rfl hvne
            · rfl
          simp only [hvE, Bool.false_eq_true, if_false] at h
          injection h with h1 h2
          injection h1 with h1
          refine ⟨w, [], hw, Or.inl rfl, ?_⟩
          rw [← h1, ← h2]
          rw [if_neg (show ¬ (Token.mk TOKENS.IDENT v).type = TOKENS.STRING from
            fun hh => absurd (show TOKENS.IDENT = TOKENS.STRING from hh) (by decide))]
          have hcons : v ++ input.drop (consumeWhitespace input pos + v.length) =
              input.drop (consumeWhitespace input pos) := by
            rw [hv]
            exact consumed_append m.regex input (consumeWhitespace input pos)
          have h7 := take_append_of_consumed input _ _ (consumeWhitespace input pos) hcons
          rw [h7, hwtake]

/-- Witness for C3 (amended): on input consisting of a space then `1`, the
call scans the space plus the Number token text `1`. -/
theorem c3_amended_witness :
    ∃ w ext, (∀ ch ∈ w, ch = ' ') ∧ (ext = [] ∨ ext = ['"']) ∧
      ([' ', '1'] : List Char).take 2 = ([' ', '1'] : List Char).take 0 ++ w ++
        (if (Token.mk TOKENS.NUMBER ['1']).type = TOKENS.STRING then
          '"' :: (Token.mk TOKENS.NUMBER ['1']).value ++ ext
        else (Token.mk TOKENS.NUMBER ['1']).value) :=
  c3_amended_scan customTokens [' ', '1'] 0 (Token.mk TOKENS.NUMBER ['1']) 2 rfl

/-! ### Built-in character classes -/

theorem produto_mem {c : Char} (h : produtoTok.regex c = true) :
    c ∈ ['p', 'r', 'o', 'd', 'u', 't', 'o'] := by
  simp only [produtoTok, Bool.or_eq_true, beq_iff_eq] at h
  simp only [List.mem_cons, List.not_mem_nil, or_false]
  tauto

theorem categoria_mem {c : Char} (h : categoriaTok.regex c = true) :
    c ∈ ['c', 'a', 't', 'e', 'g', 'o', 'r', 'i', 'a'] := by
  simp only [categoriaTok, Bool.or_eq_true, beq_iff_eq] at h
  simp only [List.mem_cons, List.not_mem_nil, or_false]
  tauto

theorem preco_mem {c : Char} (h : precoTok.regex c = true) :
    c ∈ ['p', 'r', 'e', 'ç', 'o'] := by
  simp only [precoTok, Bool.or_eq_true, beq_iff_eq] at h
  simp only [List.mem_cons, List.not_mem_nil, or_false]
  tauto

/-- A character accepted by any built-in matcher is not a space, not a quote,
and not a digit, so nextToken always reaches matcher dispatch on it. -/
theorem good_char_facts {c : Char}
    (h : produtoTok.regex c = true ∨ categoriaTok.regex c = true ∨
      precoTok.regex c = true) :
    ¬ c = ' ' ∧ ¬ c = '"' ∧ c.isDigit = false := by
  rcases h with h | h | h
  · exact (show ∀ x ∈ ['p', 'r', 'o', 'd', 'u', 't', 'o'],
      ¬ x = ' ' ∧ ¬ x = '"' ∧ x.isDigit = false by decide) c (produto_mem h)
  · exact (show ∀ x ∈ ['c', 'a', 't', 'e', 'g', 'o', 'r', 'i', 'a'],
      ¬ x = ' ' ∧ ¬ x = '"' ∧ x.isDigit = false by decide) c (categoria_mem h)
  · exact (show ∀ x ∈ ['p', 'r', 'e', 'ç', 'o'],
      ¬ x = ' ' ∧ ¬ x = '"' ∧ x.isDigit = false by decide) c (preco_mem h)

theorem tokenizeCustomToken_of_cct {input : List Char} {pos : Nat} {v : List Char}
    (hvne : v ≠ [])
    (heq : consumeCustomToken customTokens input pos = (v, pos + v.length)) :
    tokenizeCustomToken customTokens input pos =
      (Except.ok (Token.mk TOKENS.IDENT v), pos + v.length) := by
  have hvE : v.isEmpty = false := by
    cases v
    · exact absurd rfl hvne
    · rfl
  simp only [tokenizeCustomToken, heq, hvE, Bool.false_eq_true, if_false]

/-- When the current character is accepted by some built-in matcher, the
dispatch emits an Identifier token whose text is a non-empty prefix of the
remaining input. -/
theorem dispatch_good {input : List Char} {pos : Nat} {c : Char}
    (hc : peek input pos = some c)
    (hg : produtoTok.regex c = true ∨ categoriaTok.regex c = true ∨
      precoTok.regex c = true) :
    ∃ v, v ≠ [] ∧
      tokenizeCustomToken customTokens input pos =
        (Except.ok (Token.mk TOKENS.IDENT v), pos + v.length) ∧
      v ++ input.drop (pos + v.length) = input.drop pos := by
  have cons_of : ∀ m : CustomToken, m.regex c = true →
      (input.drop pos).takeWhile m.regex =
        c :: ((input.drop (pos + 1)).takeWhile m.regex) := by
    intro m hm
    rw [drop_cons_of_peek hc, List.takeWhile_cons_of_pos hm]
  by_cases h1 : produtoTok.regex c = true
  · refine ⟨(input.drop pos).takeWhile produtoTok.regex, ?_, ?_, ?_⟩
    · rw [cons_of produtoTok h1]
      exact List.cons_ne_nil _ _
    · refine tokenizeCustomToken_of_cct ?_ ?_
      · rw [cons_of produtoTok h1]
        exact List.cons_ne_nil _ _
      · rw [show customTokens = produtoTok :: [categoriaTok, precoTok] from rfl]
        exact consumeCustomToken_hit produtoTok [categoriaTok, precoTok] hc h1
    · exact consumed_append produtoTok.regex input pos
  · have h1f : produtoTok.regex c = false := by
      cases hb : produtoTok.regex c
      · rfl
      · exact absurd hb h1
    by_cases h2 : categoriaTok.regex c = true
    · refine ⟨(input.drop pos).takeWhile categoriaTok.regex, ?_, ?_, ?_⟩
      · rw [cons_of categoriaTok h2]
        exact List.cons_ne_nil _ _
      · refine tokenizeCustomToken_of_cct ?_ ?_
        · rw [cons_of categoriaTok h2]
          exact List.cons_ne_nil _ _
        · rw [show customTokens = produtoTok :: [categoriaTok, precoTok] from rfl]
          rw [consumeCustomToken_skipcons produtoTok [categoriaTok, precoTok] hc h1f]
          exact consumeCustomToken_hit categoriaTok [precoTok] hc h2
      · exact consumed_append categoriaTok.regex input pos
    · have h2f : categoriaTok.regex c = false := by
        cases hb : categoriaTok.regex c
        · rfl
        · exact absurd hb h2
      have h3 : precoTok.regex c = true := by tauto
      refine ⟨(input.drop pos).takeWhile precoTok.regex, ?_, ?_, ?_⟩
      · rw [cons_of precoTok h3]
        exact List.cons_ne_nil _ _
      · refine tokenizeCustomToken_of_cct ?_ ?_
        · rw [cons_of precoTok h3]
          exact List.cons_ne_nil _ _
        · rw [show customTokens = produtoTok :: [categoriaTok, precoTok] from rfl]
          rw [consumeCustomToken_skipcons produtoTok [categoriaTok, precoTok] hc h1f]
          rw [consumeCustomToken_skipcons categoriaTok [precoTok] hc h2f]
          exact consumeCustomToken_hit precoTok [] hc h3
      · exact consumed_append precoTok.regex input pos

/-- Main loop invariant for inputs drawn from the built-in classes: the run
succeeds, stops at the end, and emits only Identifier tokens whose texts
concatenate to the remaining input. -/
theorem c1_loop (input : List Char) :
    ∀ k pos, input.length + 1 - pos ≤ k → pos ≤ input.length →
      (∀ ch ∈ input.drop pos, produtoTok.regex ch = true ∨
        categoriaTok.regex ch = true ∨ precoTok.regex ch = true) →
      ∃ ts, tokenize customTokens input pos = (Except.ok ts, input.length) ∧
        (∀ t ∈ ts, t.type = TOKENS.IDENT) ∧
        tokenTexts ts = input.drop pos ∧
        (pos < input.length → ts ≠ []) := by
  intro k
  induction k with
  | zero =>
    intro pos hk hle hgood
    exfalso
    omega
  | succ k ih =>
    intro pos hk hle hgood
    by_cases hend : pos = input.length
    · refine ⟨[], ?_, by simp, ?_, by omega⟩
      · rw [tokenize_at_end customTokens input pos (by omega), hend]
      · rw [hend]
        simp [tokenTexts]
    · have hlt : pos < input.length := by omega
      have hc := peek_of_get hlt
      have hcin : input.get ⟨pos, hlt⟩ ∈ input.drop pos := by
        rw [drop_cons_of_peek hc]
        exact List.mem_cons_self _ _
      have hg := hgood _ hcin
      obtain ⟨hsp, hq, hd⟩ := good_char_facts hg
      have hp1 : consumeWhitespace input pos = pos := consumeWhitespace_nomove hc hsp
      obtain ⟨v, hvne, hdisp, hcons⟩ := dispatch_good hc hg
      have htok : tokenizeIt customTokens input pos =
          (Except.ok (Token.mk TOKENS.IDENT v), pos + v.length) := by
        rw [tokenizeIt_custom_eq customTokens input pos pos _ hp1 hc hq hd]
        exact hdisp
      have hvlen : 1 ≤ v.length := by
        cases v
        · exact absurd rfl hvne
        · simp
      have hlen := congrArg List.length hcons
      simp only [List.length_append, List.length_drop] at hlen
      have hple : pos + v.length ≤ input.length := by omega
      have hgood2 : ∀ ch ∈ input.drop (pos + v.length), produtoTok.regex ch = true ∨
          categoriaTok.regex ch = true ∨ precoTok.regex ch = true := by
        intro ch hch
        refine hgood ch ?_
        rw [← hcons]
        exact List.mem_append_right v hch
      obtain ⟨ts, hts1, hts2, hts3, hts4⟩ := ih (pos + v.length) (by omega) hple hgood2
      refine ⟨Token.mk TOKENS.IDENT v :: ts, ?_, ?_, ?_, ?_⟩
      · rw [tokenize_step, htok]
        simp only []
        rw [if_neg (show ¬ (Token.mk TOKENS.IDENT v).type = TOKENS.EOF from
          fun hh => absurd (show TOKENS.IDENT = TOKENS.EOF from hh) (by decide))]
        rw [hts1]
      · intro t ht
        rcases List.mem_cons.mp ht with h | h
        · rw [h]
        · exact hts2 t h
      · simp only [tokenTexts, List.map_cons, List.flatten_cons] at hts3 ⊢
        rw [hts3, hcons]
      · intro _
        exact List.cons_ne_nil _ _

/-- C1 counterexample: `epo` is drawn entirely from the preço matcher's
character class, yet it is lexed as two Identifier tokens `e` and `po`, not
as one Identifier token. -/
theorem c1_counterexample :
    (∀ ch ∈ ("epo".data), precoTok.regex ch = true) ∧
    tokenize customTokens ("epo".data) 0 =
      (Except.ok [Token.mk TOKENS.IDENT ['e'], Token.mk TOKENS.IDENT ['p', 'o']], 3) ∧
    [Token.mk TOKENS.IDENT ['e'], Token.mk TOKENS.IDENT ['p', 'o']] ≠
      [Token.mk TOKENS.IDENT ("epo".data)] :=
  ⟨by decide, rfl, by decide⟩

/-- C1 (amended): for each built-in Field Matcher, every non-empty string
drawn from that matcher's permitted characters tokenizes without error into
one or more Identifier tokens whose texts concatenate to the string — and
when the matcher is the first registered one (produto), into exactly one
Identifier token whose text is the whole string; for later matchers the
string may split into several Identifier tokens. -/
theorem c1_amended_class_strings (m : CustomToken) (hm : m ∈ customTokens)
    (s : List Char) (hne : s ≠ []) (hall : ∀ ch ∈ s, m.regex ch = true) :
    (∃ ts, tokenize customTokens s 0 = (Except.ok ts, s.length) ∧ ts ≠ [] ∧
      (∀ t ∈ ts, t.type = TOKENS.IDENT) ∧ tokenTexts ts = s) ∧
    (m = produtoTok → tokenize customTokens s 0 =
      (Except.ok [Token.mk TOKENS.IDENT s], s.length)) := by
  constructor
  · have hm3 : m = produtoTok ∨ m = categoriaTok ∨ m = precoTok := by
      simpa [customTokens] using hm
    have hgood : ∀ ch ∈ s.drop 0, produtoTok.regex ch = true ∨
        categoriaTok.regex ch = true ∨ precoTok.regex ch = true := by
      intro ch hch
      have hch2 := hall ch (by simpa using hch)
      rcases hm3 with rfl | rfl | rfl
      · exact Or.inl hch2
      · exact Or.inr (Or.inl hch2)
      · exact Or.inr (Or.inr hch2)
    obtain ⟨ts, h1, h2, h3, h4⟩ := c1_loop s (s.length + 1) 0 (by omega) (by omega) hgood
    exact ⟨ts, h1, h4 (List.length_pos.mpr hne), h2, by simpa using h3⟩
  · intro hmp
    subst hmp
    obtain ⟨c, s2, rfl⟩ : ∃ c s2, s = c :: s2 := by
      cases s with
      | nil => exact absurd rfl hne
      | cons c s2 => exact ⟨c, s2, rfl⟩
    have hc : peek (c :: s2) 0 = some c := by simp [peek]
    have hg : produtoTok.regex c = true := hall c (by simp)
    obtain ⟨hsp, hq, hd⟩ := good_char_facts (Or.inl hg)
    have hp1 : consumeWhitespace (c :: s2) 0 = 0 := consumeWhitespace_nomove hc hsp
    have htw : ((c :: s2).drop 0).takeWhile produtoTok.regex = c :: s2 := by
      rw [List.drop_zero]
      exact List.takeWhile_eq_self_iff.mpr (fun x hx => hall x hx)
    have hcct : consumeCustomToken customTokens (c :: s2) 0 =
        (c :: s2, 0 + (c :: s2).length) := by
      rw [show customTokens = produtoTok :: [categoriaTok, precoTok] from rfl]
      rw [consumeCustomToken_hit produtoTok [categoriaTok, precoTok] hc hg, htw]
    have htokc := tokenizeCustomToken_of_cct (List.cons_ne_nil c s2) hcct
    have htok : tokenizeIt customTokens (c :: s2) 0 =
        (Except.ok (Token.mk TOKENS.IDENT (c :: s2)), (c :: s2).length) := by
      rw [tokenizeIt_custom_eq customTokens (c :: s2) 0 0 c hp1 hc hq hd, htokc]
      simp
    rw [tokenize_step, htok]
    simp only []
    rw [if_neg (show ¬ (Token.mk TOKENS.IDENT (c :: s2)).type = TOKENS.EOF from
      fun hh => absurd (show TOKENS.IDENT = TOKENS.EOF from hh) (by decide))]
    rw [tokenize_at_end customTokens (c :: s2) (c :: s2).length (Nat.le_refl _)]

/-- Witness for C1 (amended) at the produto matcher and the string `produto`
itself. -/
theorem c1_amended_witness :
    (∃ ts, tokenize customTokens ("produto".data) 0 =
        (Except.ok ts, ("produto".data).length) ∧ ts ≠ [] ∧
      (∀ t ∈ ts, t.type = TOKENS.IDENT) ∧ tokenTexts ts = "produto".data) ∧
    (produtoTok = produtoTok → tokenize customTokens ("produto".data) 0 =
      (Except.ok [Token.mk TOKENS.IDENT ("produto".data)], ("produto".data).length)) :=
  c1_amended_class_strings produtoTok (List.mem_cons_self _ _) ("produto".data)
    (by decide) (by decide)

end BrazilianRule
